import Mathlib

/-!
# Verification of `advanced-vector/vector.h`

Shallow embedding of the C++ dynamic-array container `Vector<T>` built on
the raw-storage abstraction `RawMemory<T>`.

A raw buffer is modelled as a `List (Option α)`: a slot holds `some a`
when a live object with value `a` is constructed there, and `none` when
the slot is uninitialized raw memory. At this value level a move and a
copy of an element both transfer the value (the element types considered
are well-behaved value types), `std::construct_at` writes `some`,
`std::destroy_at` writes `none`.
-/

namespace AdvVec

/-- Read slot `i` of a raw buffer; out-of-range reads give `none`
(uninitialized / no object), matching the partitioning invariant's view. -/
def sget {α : Type} (s : List (Option α)) (i : Nat) : Option α :=
  (s[i]?).getD none

theorem sget_of_le {α : Type} (s : List (Option α)) (i : Nat) (h : s.length ≤ i) :
    sget s i = none := by
  simp [sget, List.getElem?_eq_none h]

theorem sget_set {α : Type} (s : List (Option α)) (i j : Nat) (x : Option α) :
    sget (s.set i x) j = if i = j ∧ i < s.length then x else sget s j := by
  unfold sget
  by_cases hij : i = j
  · subst hij
    by_cases hi : i < s.length
    · simp [List.getElem?_set_self hi, hi]
    · rw [List.set_eq_of_length_le (Nat.le_of_not_lt hi)]
      simp [hi]
  · simp [List.getElem?_set_ne hij, hij]

theorem sget_replicate {α : Type} (n i : Nat) :
    sget (List.replicate n (none : Option α)) i = none := by
  unfold sget
  by_cases h : i < n
  · simp [List.getElem?_replicate, h]
  · simp [List.getElem?_eq_none (by simpa using Nat.le_of_not_lt h :
      (List.replicate n (none : Option α)).length ≤ i)]

/-- `std::destroy_n(s + lo, n)`: destroy the `n` objects in slots
`[lo, lo+n)`, leaving raw memory behind. -/
def clrN {α : Type} (s : List (Option α)) (lo n : Nat) : List (Option α) :=
  match n with
  | 0 => s
  | m + 1 => clrN (s.set lo none) (lo + 1) m

/-- `std::uninitialized_value_construct_n(s + lo, n)` with `d` the
default-constructed value of the element type. -/
def fillN {α : Type} (s : List (Option α)) (lo n : Nat) (d : α) : List (Option α) :=
  match n with
  | 0 => s
  | m + 1 => fillN (s.set lo (some d)) (lo + 1) m d

/-- `std::uninitialized_copy_n / uninitialized_move_n / std::copy`:
transfer `n` element values from `src[srcLo..]` into `dst[dstLo..]`,
left to right.  (At value level copying, moving, copy-assigning and
placement-constructing from a source element all write the same value.) -/
def copyN {α : Type} (src : List (Option α)) (srcLo : Nat)
    (dst : List (Option α)) (dstLo n : Nat) : List (Option α) :=
  match n with
  | 0 => dst
  | m + 1 => copyN src (srcLo + 1) (dst.set dstLo (sget src srcLo)) (dstLo + 1) m

/-- `std::move_backward(s + first, s + first + n, s + first + n + 1)`:
shift slots `[first, first+n)` one to the right, processing right-to-left
so that no value is overwritten before it is read. -/
def moveBackwardN {α : Type} (s : List (Option α)) (first n : Nat) : List (Option α) :=
  match n with
  | 0 => s
  | m + 1 => moveBackwardN (s.set (first + m + 1) (sget s (first + m))) first m

/-- `std::move(s + dst + 1, s + dst + 1 + n, s + dst)`: shift slots
`[dst+1, dst+1+n)` one to the left, processing left to right. -/
def moveForwardN {α : Type} (s : List (Option α)) (dst n : Nat) : List (Option α) :=
  match n with
  | 0 => s
  | m + 1 => moveForwardN (s.set dst (sget s (dst + 1))) (dst + 1) m

theorem length_clrN {α : Type} (s : List (Option α)) (lo n : Nat) :
    (clrN s lo n).length = s.length := by
  induction n generalizing s lo with
  | zero => rfl
  | succ m ih => simp [clrN, ih]

theorem length_fillN {α : Type} (s : List (Option α)) (lo n : Nat) (d : α) :
    (fillN s lo n d).length = s.length := by
  induction n generalizing s lo with
  | zero => rfl
  | succ m ih => simp [fillN, ih]

theorem length_copyN {α : Type} (src : List (Option α)) (srcLo : Nat)
    (dst : List (Option α)) (dstLo n : Nat) :
    (copyN src srcLo dst dstLo n).length = dst.length := by
  induction n generalizing srcLo dst dstLo with
  | zero => rfl
  | succ m ih => simp [copyN, ih]

theorem length_moveBackwardN {α : Type} (s : List (Option α)) (first n : Nat) :
    (moveBackwardN s first n).length = s.length := by
  induction n generalizing s with
  | zero => rfl
  | succ m ih => simp [moveBackwardN, ih]

theorem length_moveForwardN {α : Type} (s : List (Option α)) (dst n : Nat) :
    (moveForwardN s dst n).length = s.length := by
  induction n generalizing s dst with
  | zero => rfl
  | succ m ih => simp [moveForwardN, ih]

theorem sget_clrN {α : Type} (s : List (Option α)) (lo n j : Nat) :
    sget (clrN s lo n) j = if lo ≤ j ∧ j < lo + n then none else sget s j := by
  induction n generalizing s lo with
  | zero =>
    simp only [clrN]
    rw [if_neg]
    omega
  | succ m ih =>
    simp only [clrN]
    rw [ih]
    rcases Nat.lt_trichotomy j lo with hlt | heq | hgt
    · rw [if_neg (by omega), if_neg (by omega), sget_set]
      rw [if_neg (by omega)]
    · subst heq
      rw [if_neg (by omega), if_pos (by omega)]
      rw [sget_set]
      by_cases hj : j < s.length
      · rw [if_pos ⟨rfl, hj⟩]
      · rw [if_neg (by tauto), sget_of_le _ _ (Nat.le_of_not_lt hj)]
    · by_cases hin : j < lo + (m + 1)
      · rw [if_pos (by omega), if_pos (by omega)]
      · rw [if_neg (by omega), if_neg (by omega), sget_set, if_neg (by omega)]

theorem sget_fillN {α : Type} (s : List (Option α)) (lo n j : Nat) (d : α)
    (h : lo + n ≤ s.length) :
    sget (fillN s lo n d) j = if lo ≤ j ∧ j < lo + n then some d else sget s j := by
  induction n generalizing s lo with
  | zero =>
    simp only [fillN]
    rw [if_neg]
    omega
  | succ m ih =>
    simp only [fillN]
    rw [ih _ _ (by simp; omega)]
    rcases Nat.lt_trichotomy j lo with hlt | heq | hgt
    · rw [if_neg (by omega), if_neg (by omega), sget_set, if_neg (by omega)]
    · subst heq
      rw [if_neg (by omega), if_pos (by omega), sget_set, if_pos ⟨rfl, by omega⟩]
    · by_cases hin : j < lo + (m + 1)
      · rw [if_pos (by omega), if_pos (by omega)]
      · rw [if_neg (by omega), if_neg (by omega), sget_set, if_neg (by omega)]

theorem sget_copyN {α : Type} (src : List (Option α)) (srcLo : Nat)
    (dst : List (Option α)) (dstLo n j : Nat) (h : dstLo + n ≤ dst.length) :
    sget (copyN src srcLo dst dstLo n) j =
      if dstLo ≤ j ∧ j < dstLo + n then sget src (srcLo + (j - dstLo)) else sget dst j := by
  induction n generalizing srcLo dst dstLo with
  | zero =>
    simp only [copyN]
    rw [if_neg]
    omega
  | succ m ih =>
    simp only [copyN]
    rw [ih _ _ _ (by simp; omega)]
    rcases Nat.lt_trichotomy j dstLo with hlt | heq | hgt
    · rw [if_neg (by omega), if_neg (by omega), sget_set, if_neg (by omega)]
    · subst heq
      rw [if_neg (by omega), if_pos (by omega), sget_set, if_pos ⟨rfl, by omega⟩]
      simp
    · by_cases hin : j < dstLo + (m + 1)
      · rw [if_pos (by omega), if_pos (by omega)]
        congr 1
        omega
      · rw [if_neg (by omega), if_neg (by omega), sget_set, if_neg (by omega)]

theorem sget_moveBackwardN {α : Type} (s : List (Option α)) (first n j : Nat)
    (h : first + n < s.length) :
    sget (moveBackwardN s first n) j =
      if first + 1 ≤ j ∧ j ≤ first + n then sget s (j - 1) else sget s j := by
  induction n generalizing s with
  | zero =>
    simp only [moveBackwardN]
    rw [if_neg]
    omega
  | succ m ih =>
    simp only [moveBackwardN]
    rw [ih _ (by simp; omega)]
    rcases Nat.lt_trichotomy j (first + m + 1) with hlt | heq | hgt
    · by_cases hin : first + 1 ≤ j
      · rw [if_pos (by omega), if_pos (by omega), sget_set, if_neg (by omega)]
      · rw [if_neg (by omega), if_neg (by omega), sget_set, if_neg (by omega)]
    · subst heq
      rw [if_neg (by omega), if_pos (by omega), sget_set, if_pos ⟨rfl, by omega⟩]
      congr 1
    · rw [if_neg (by omega), if_neg (by omega), sget_set, if_neg (by omega)]

theorem sget_moveForwardN {α : Type} (s : List (Option α)) (dst n j : Nat)
    (h : dst + n < s.length) :
    sget (moveForwardN s dst n) j =
      if dst ≤ j ∧ j < dst + n then sget s (j + 1) else sget s j := by
  induction n generalizing s dst with
  | zero =>
    simp only [moveForwardN]
    rw [if_neg]
    omega
  | succ m ih =>
    simp only [moveForwardN]
    rw [ih _ _ (by simp; omega)]
    rcases Nat.lt_trichotomy j dst with hlt | heq | hgt
    · rw [if_neg (by omega), if_neg (by omega), sget_set, if_neg (by omega)]
    · subst heq
      rw [if_neg (by omega), if_pos (by omega), sget_set, if_pos ⟨rfl, by omega⟩]
    · by_cases hin : j < dst + (m + 1)
      · rw [if_pos (by omega), if_pos (by omega), sget_set, if_neg (by omega)]
      · rw [if_neg (by omega), if_neg (by omega), sget_set, if_neg (by omega)]

/-- `RawMemory<T>`: owns a single contiguous buffer of `capacity_`
uninitialized element slots (`buffer_`), knowing nothing about liveness.
`buffer_ = []` models the null buffer of a default-constructed /
zero-capacity block. -/
structure RawMemory (α : Type) where
  buffer_ : List (Option α)
  capacity_ : Nat
deriving DecidableEq, Repr

namespace RawMemory

/-- `RawMemory()` — null buffer, capacity 0. -/
def mkDefault (α : Type) : RawMemory α := ⟨[], 0⟩

/-- `explicit RawMemory(size_t capacity)` — `Allocate(capacity)` yields a
fresh buffer of `capacity` uninitialized slots (null when capacity is 0). -/
def alloc (α : Type) (capacity : Nat) : RawMemory α :=
  ⟨List.replicate capacity none, capacity⟩

/-- `Swap`: exchanges buffer and capacity; returns (this after, other after). -/
def Swap {α : Type} (a b : RawMemory α) : RawMemory α × RawMemory α := (b, a)

def Capacity {α : Type} (m : RawMemory α) : Nat := m.capacity_

/-- `RawMemory(RawMemory&& other)`: a default-initialized block (null
buffer, capacity 0) swapped with `other`; returns
(constructed block, other after). -/
def moveCtor {α : Type} (other : RawMemory α) : RawMemory α × RawMemory α :=
  (mkDefault α).Swap other

end RawMemory

/-- `Vector<T>`: an owned `RawMemory` block plus the live count `size_`. -/
structure Vector (α : Type) where
  data_ : RawMemory α
  size_ : Nat
deriving DecidableEq, Repr

namespace Vector

def slots {α : Type} (v : Vector α) : List (Option α) := v.data_.buffer_

/-- `Size()` -/
def Size {α : Type} (v : Vector α) : Nat := v.size_

/-- `Capacity()` — `data_.Capacity()` -/
def Capacity {α : Type} (v : Vector α) : Nat := v.data_.capacity_

/-- Value stored at index `i` (reading the slot through `operator[]`):
`some a` when a live element with value `a` is there, `none` for
uninitialized memory. -/
def vGet {α : Type} (v : Vector α) (i : Nat) : Option α := sget v.slots i

/-- `Vector()` — empty, no storage. -/
def mkDefault (α : Type) : Vector α := ⟨RawMemory.mkDefault α, 0⟩

/-- `explicit Vector(size_t size)`: `data_(size), size_(size)`, then
`uninitialized_value_construct_n(begin(), size)`; `d` is the
default-constructed value of the element type. -/
def mkSized {α : Type} (size : Nat) (d : α) : Vector α :=
  ⟨⟨fillN (RawMemory.alloc α size).buffer_ 0 size d, size⟩, size⟩

/-- `Vector(const Vector& other)`: `data_(other.size_), size_(other.size_)`,
then `uninitialized_copy_n(other.begin(), size_, begin())`. -/
def copyCtor {α : Type} (other : Vector α) : Vector α :=
  ⟨⟨copyN other.slots 0 (RawMemory.alloc α other.size_).buffer_ 0 other.size_,
    other.size_⟩, other.size_⟩

/-- `Vector(Vector&& other)`: `data_(std::move(other.data_))` (block moves
out, `other`'s block becomes null/0) and `size_(std::exchange(other.size_, 0))`.
Returns (constructed vector, other after). -/
def moveCtor {α : Type} (other : Vector α) : Vector α × Vector α :=
  ⟨⟨(RawMemory.moveCtor other.data_).1, other.size_⟩,
   ⟨(RawMemory.moveCtor other.data_).2, 0⟩⟩

/-- `Swap(Vector& other)`: `std::swap(data_, other.data_)`,
`std::swap(size_, other.size_)`.  Returns (this after, other after). -/
def Swap {α : Type} (a b : Vector α) : Vector α × Vector α := (b, a)

/-- `operator=(Vector&& rhs)`: `if (this != &rhs) Swap(rhs)`.  The flag
`same` models the pointer identity test `this == &rhs`.
Returns (lhs after, rhs after). -/
def moveAssign {α : Type} (same : Bool) (lhs rhs : Vector α) : Vector α × Vector α :=
  if same then (lhs, rhs) else lhs.Swap rhs

/-- `AllocateOnCapacity(const Vector& rhs)` (requires `rhs.size_ ≤ Capacity()`):
`std::copy` of the overlapping prefix, then destroy the excess tail or
copy-construct the excess source elements; finally `size_ = rhs.size_`. -/
def AllocateOnCapacity {α : Type} (lhs rhs : Vector α) : Vector α :=
  let s1 := copyN rhs.slots 0 lhs.slots 0 (min lhs.size_ rhs.size_)
  let s2 := if rhs.size_ < lhs.size_
    then clrN s1 rhs.size_ (lhs.size_ - rhs.size_)
    else copyN rhs.slots lhs.size_ s1 lhs.size_ (rhs.size_ - lhs.size_)
  ⟨⟨s2, lhs.data_.capacity_⟩, rhs.size_⟩

/-- `operator=(const Vector& rhs)`: guarded by `this != &rhs` (flag `same`);
if `rhs.size_ > data_.Capacity()` build `rhs_copy(rhs)` and `Swap(rhs_copy)`
(lhs ends up holding the copy); otherwise `AllocateOnCapacity(rhs)`. -/
def copyAssign {α : Type} (same : Bool) (lhs rhs : Vector α) : Vector α :=
  if same then lhs
  else if rhs.size_ > lhs.data_.capacity_ then copyCtor rhs
  else AllocateOnCapacity lhs rhs

/-- `Reserve(size_t new_capacity)`: no-op when `new_capacity ≤ Capacity()`;
otherwise a fresh block of `new_capacity` slots is filled from the live
elements (`uninitialized_move_n` or `uninitialized_copy_n` — value-equal
at this level), the old live elements are destroyed and the block adopted
via `data_.Swap(new_data)`. -/
def Reserve {α : Type} (v : Vector α) (new_capacity : Nat) : Vector α :=
  if new_capacity ≤ v.data_.capacity_ then v
  else ⟨⟨copyN v.slots 0 (RawMemory.alloc α new_capacity).buffer_ 0 v.size_,
         new_capacity⟩, v.size_⟩

/-- `Resize(size_t new_size)`: shrink destroys the tail `[new_size, size_)`;
grow reserves then value-constructs the tail `[size_, new_size)` (default
value `d`); finally `size_ = new_size`. -/
def Resize {α : Type} (v : Vector α) (new_size : Nat) (d : α) : Vector α :=
  if new_size < v.size_ then
    ⟨⟨clrN v.slots new_size (v.size_ - new_size), v.data_.capacity_⟩, new_size⟩
  else if v.size_ < new_size then
    let r := Reserve v new_size
    ⟨⟨fillN r.slots r.size_ (new_size - r.size_) d, r.data_.capacity_⟩, new_size⟩
  else ⟨v.data_, new_size⟩

/-- `PopBack()` (requires `size_ != 0`): `--size_` then `destroy_at(end())`,
i.e. the element at index `size_ - 1` is destroyed. -/
def PopBack {α : Type} (v : Vector α) : Vector α :=
  ⟨⟨(v.slots).set (v.size_ - 1) none, v.data_.capacity_⟩, v.size_ - 1⟩

/-- `Realocate(pos, args...)` (private, called by `Emplace` when
`size_ == Capacity()`): allocates `size_ == 0 ? 1 : size_ * 2` slots,
constructs the new element (value `a`) at index `idx = pos` of the new
block first, then relocates `[begin, pos)` to `[0, idx)` and `[pos, end)`
to `[idx+1, ...)`, destroys the old elements and adopts the new block. -/
def Realocate {α : Type} (v : Vector α) (pos : Nat) (a : α) : Vector α :=
  let newCap := if v.size_ = 0 then 1 else v.size_ * 2
  let nd1 := (RawMemory.alloc α newCap).buffer_.set pos (some a)
  let nd2 := copyN v.slots 0 nd1 0 pos
  let nd3 := copyN v.slots pos nd2 (pos + 1) (v.size_ - pos)
  ⟨⟨nd3, newCap⟩, v.size_ + 1⟩

/-- `Emplace(pos, args...)` (requires `pos` in `[begin, end]`, i.e.
`pos ≤ size_`): at capacity delegates to `Realocate`; at the end slot a
direct `construct_at`; otherwise builds the temporary (value `a`),
move-constructs the last element into the new end slot, shifts
`[pos, end-1)` right with `move_backward`, and move-assigns the temporary
into slot `pos`. -/
def Emplace {α : Type} (v : Vector α) (pos : Nat) (a : α) : Vector α :=
  if v.size_ = v.data_.capacity_ then Realocate v pos a
  else if pos = v.size_ then
    ⟨⟨(v.slots).set pos (some a), v.data_.capacity_⟩, v.size_ + 1⟩
  else
    let s1 := (v.slots).set v.size_ (sget v.slots (v.size_ - 1))
    let s2 := moveBackwardN s1 pos (v.size_ - 1 - pos)
    ⟨⟨s2.set pos (some a), v.data_.capacity_⟩, v.size_ + 1⟩

/-- `Insert(pos, value)` — both overloads forward to `Emplace`. -/
def Insert {α : Type} (v : Vector α) (pos : Nat) (a : α) : Vector α :=
  Emplace v pos a

/-- `EmplaceBack(args...)` — `Emplace(end(), ...)`. -/
def EmplaceBack {α : Type} (v : Vector α) (a : α) : Vector α :=
  Emplace v v.size_ a

/-- `PushBack(value)` — both overloads forward to `EmplaceBack`. -/
def PushBack {α : Type} (v : Vector α) (a : α) : Vector α :=
  EmplaceBack v a

/-- `Erase(pos)` (requires `pos` in `[begin, end)`): when `size_` is
nonzero, `std::move(pos+1, end(), pos)` shifts the suffix left by one and
`PopBack()` removes the duplicated last slot. -/
def Erase {α : Type} (v : Vector α) (pos : Nat) : Vector α :=
  if v.size_ ≠ 0 then
    PopBack ⟨⟨moveForwardN v.slots pos (v.size_ - 1 - pos), v.data_.capacity_⟩, v.size_⟩
  else v

/-- The container invariant: the buffer really holds `Capacity()` slots,
`size_ ≤ Capacity()`, and the indices `[0, size_)` are exactly the live
(constructed) slots — everything at and beyond `size_` is uninitialized. -/
def WF {α : Type} (v : Vector α) : Prop :=
  v.slots.length = v.Capacity ∧ v.size_ ≤ v.Capacity ∧
    ∀ i, i < v.Capacity → ((vGet v i).isSome ↔ i < v.size_)

instance {α : Type} [DecidableEq α] (v : Vector α) : Decidable (WF v) := by
  unfold WF
  infer_instance

theorem WF.live_iff {α : Type} {v : Vector α} (h : WF v) (i : Nat) :
    (vGet v i).isSome ↔ i < v.size_ := by
  obtain ⟨hlen, hsz, hlive⟩ := h
  by_cases hi : i < v.Capacity
  · exact hlive i hi
  · have : sget v.slots i = none := sget_of_le _ _ (by omega)
    rw [vGet, this]
    simp
    omega

theorem WF_mkDefault (α : Type) : WF (mkDefault α) :=
  ⟨rfl, Nat.le_refl 0, fun i hi => absurd hi (Nat.not_lt_zero i)⟩

theorem vGet_mkSized {α : Type} (n : Nat) (d : α) (i : Nat) :
    vGet (mkSized n d) i = if i < n then some d else none := by
  show sget (fillN (List.replicate n none) 0 n d) i = _
  rw [sget_fillN _ _ _ _ _ (by simp)]
  by_cases h : i < n
  · rw [if_pos ⟨Nat.zero_le i, by omega⟩, if_pos h]
  · rw [if_neg (by omega), if_neg h, sget_replicate]

theorem WF_mkSized {α : Type} (n : Nat) (d : α) : WF (mkSized n d) := by
  refine ⟨?_, Nat.le_refl n, ?_⟩
  · show (fillN (List.replicate n none) 0 n d).length = n
    rw [length_fillN, List.length_replicate]
  · intro i hi
    have hi' : i < n := hi
    rw [vGet_mkSized, if_pos hi']
    simpa using hi'

theorem vGet_copyCtor {α : Type} (other : Vector α) (i : Nat) :
    vGet (copyCtor other) i = if i < other.size_ then vGet other i else none := by
  show sget (copyN other.slots 0 (List.replicate other.size_ none) 0 other.size_) i = _
  rw [sget_copyN _ _ _ _ _ _ (by simp)]
  by_cases h : i < other.size_
  · rw [if_pos ⟨Nat.zero_le i, by omega⟩]
    rw [if_pos h]
    show sget other.slots (0 + (i - 0)) = sget other.slots i
    congr 1
    omega
  · rw [if_neg (by omega), if_neg h, sget_replicate]

theorem WF_copyCtor {α : Type} (other : Vector α) (h : WF other) :
    WF (copyCtor other) := by
  refine ⟨?_, Nat.le_refl _, ?_⟩
  · show (copyN other.slots 0 (List.replicate other.size_ none) 0 other.size_).length
      = other.size_
    rw [length_copyN, List.length_replicate]
  · intro i hi
    have hi' : i < other.size_ := hi
    rw [vGet_copyCtor, if_pos hi']
    have := (h.live_iff i).mpr hi'
    simpa [this] using hi'

theorem size_copyCtor {α : Type} (other : Vector α) :
    (copyCtor other).Size = other.Size := rfl

theorem cap_copyCtor {α : Type} (other : Vector α) :
    (copyCtor other).Capacity = other.Size := rfl

theorem Reserve_noop {α : Type} (v : Vector α) (n : Nat) (h : n ≤ v.Capacity) :
    Reserve v n = v := by
  unfold Reserve
  rw [if_pos (show n ≤ v.data_.capacity_ from h)]

theorem size_Reserve {α : Type} (v : Vector α) (n : Nat) :
    (Reserve v n).Size = v.Size := by
  unfold Reserve
  split <;> rfl

theorem cap_Reserve {α : Type} (v : Vector α) (n : Nat) :
    (Reserve v n).Capacity = if n ≤ v.Capacity then v.Capacity else n := by
  unfold Reserve Capacity
  split <;> rfl

theorem vGet_Reserve {α : Type} (v : Vector α) (n : Nat) (hwf : WF v) (i : Nat)
    (hi : i < v.size_) : vGet (Reserve v n) i = vGet v i := by
  unfold Reserve
  split
  · rfl
  · rename_i hgt
    have hle : v.size_ ≤ n := le_trans hwf.2.1 (Nat.le_of_not_le hgt)
    show sget (copyN v.slots 0 (List.replicate n none) 0 v.size_) i = _
    rw [sget_copyN _ _ _ _ _ _ (by simpa using hle)]
    rw [if_pos ⟨Nat.zero_le i, by omega⟩]
    show sget v.slots (0 + (i - 0)) = sget v.slots i
    congr 1
    omega

theorem vGet_Reserve_none {α : Type} (v : Vector α) (n : Nat) (hwf : WF v) (i : Nat)
    (hi : v.size_ ≤ i) : vGet (Reserve v n) i = none := by
  unfold Reserve
  split
  · have hlive := hwf.live_iff i
    rcases hv : vGet v i with _ | a
    · rfl
    · rw [hv] at hlive
      simp at hlive
      omega
  · rename_i hgt
    have hle : v.size_ ≤ n := le_trans hwf.2.1 (Nat.le_of_not_le hgt)
    show sget (copyN v.slots 0 (List.replicate n none) 0 v.size_) i = _
    rw [sget_copyN _ _ _ _ _ _ (by simpa using hle)]
    rw [if_neg (by omega), sget_replicate]

theorem WF_Reserve {α : Type} (v : Vector α) (n : Nat) (hwf : WF v) :
    WF (Reserve v n) := by
  unfold Reserve
  split
  · exact hwf
  · rename_i hgt
    have hle : v.size_ ≤ n := le_trans hwf.2.1 (Nat.le_of_not_le hgt)
    refine ⟨?_, ?_, ?_⟩
    · show (copyN v.slots 0 (List.replicate n none) 0 v.size_).length = n
      rw [length_copyN, List.length_replicate]
    · exact hle
    · intro i hi
      show (sget (copyN v.slots 0 (List.replicate n none) 0 v.size_) i).isSome ↔ i < v.size_
      rw [sget_copyN _ _ _ _ _ _ (by simpa using hle)]
      by_cases h : i < v.size_
      · rw [if_pos ⟨Nat.zero_le i, by omega⟩]
        have heq : 0 + (i - 0) = i := by omega
        rw [heq]
        exact hwf.live_iff i
      · rw [if_neg (by omega), sget_replicate]
        simpa using h

theorem vGet_PopBack {α : Type} (v : Vector α) (hwf : WF v) (hs : v.size_ ≠ 0) (i : Nat) :
    vGet (PopBack v) i = if i = v.size_ - 1 then none else vGet v i := by
  show sget ((v.slots).set (v.size_ - 1) none) i = _
  rw [sget_set]
  by_cases h : i = v.size_ - 1
  · subst h
    rw [if_pos ⟨rfl, by rw [hwf.1]; have := hwf.2.1; omega⟩, if_pos rfl]
  · rw [if_neg (by tauto), if_neg h]
    rfl

theorem WF_PopBack {α : Type} (v : Vector α) (hwf : WF v) (hs : v.size_ ≠ 0) :
    WF (PopBack v) := by
  refine ⟨?_, ?_, ?_⟩
  · show ((v.slots).set (v.size_ - 1) none).length = v.Capacity
    rw [List.length_set]
    exact hwf.1
  · show v.size_ - 1 ≤ v.Capacity
    have := hwf.2.1
    omega
  · intro i hi
    show (vGet (PopBack v) i).isSome ↔ i < v.size_ - 1
    rw [vGet_PopBack v hwf hs]
    by_cases h : i = v.size_ - 1
    · simp [h]
    · rw [if_neg h, hwf.live_iff]
      omega

theorem size_Resize {α : Type} (v : Vector α) (n : Nat) (d : α) :
    (Resize v n d).Size = n := by
  unfold Resize
  split
  · rfl
  · split <;> rfl

theorem WF_Resize {α : Type} (v : Vector α) (n : Nat) (d : α) (hwf : WF v) :
    WF (Resize v n d) := by
  unfold Resize
  split
  · rename_i hlt
    refine ⟨?_, ?_, ?_⟩
    · show (clrN v.slots n (v.size_ - n)).length = v.Capacity
      rw [length_clrN]
      exact hwf.1
    · show n ≤ v.Capacity
      have := hwf.2.1
      omega
    · intro i hi
      show (sget (clrN v.slots n (v.size_ - n)) i).isSome ↔ i < n
      rw [sget_clrN]
      by_cases h : n ≤ i ∧ i < n + (v.size_ - n)
      · rw [if_pos h]
        simp
        omega
      · rw [if_neg h]
        rw [show sget v.slots i = vGet v i from rfl, hwf.live_iff i]
        omega
  · split
    · rename_i hnlt hgt
      have hr := WF_Reserve v n hwf
      have hrs : (Reserve v n).size_ = v.size_ := size_Reserve v n
      have hrc : n ≤ (Reserve v n).Capacity := by
        rw [cap_Reserve]
        split <;> omega
      refine ⟨?_, ?_, ?_⟩
      · show (fillN (Reserve v n).slots (Reserve v n).size_ (n - (Reserve v n).size_) d).length
          = (Reserve v n).Capacity
        rw [length_fillN]
        exact hr.1
      · show n ≤ (Reserve v n).Capacity
        exact hrc
      · intro i hi
        have hi' : i < (Reserve v n).Capacity := hi
        show (sget (fillN (Reserve v n).slots (Reserve v n).size_
          (n - (Reserve v n).size_) d) i).isSome ↔ i < n
        rw [sget_fillN _ _ _ _ _ (by rw [hr.1, hrs]; omega)]
        by_cases h : (Reserve v n).size_ ≤ i ∧ i < (Reserve v n).size_ + (n - (Reserve v n).size_)
        · rw [if_pos h]
          simp
          omega
        · rw [if_neg h]
          rw [show sget (Reserve v n).slots i = vGet (Reserve v n) i from rfl, hr.live_iff i]
          omega
    · rename_i hnlt hngt
      have he : n = v.size_ := by omega
      subst he
      exact ⟨hwf.1, hwf.2.1, hwf.2.2⟩

theorem AllocateOnCapacity_spec {α : Type} (lhs rhs : Vector α)
    (hl : WF lhs) (_hr : WF rhs) (hc : rhs.size_ ≤ lhs.Capacity) :
    (AllocateOnCapacity lhs rhs).Size = rhs.Size ∧
    (AllocateOnCapacity lhs rhs).Capacity = lhs.Capacity ∧
    ∀ i, vGet (AllocateOnCapacity lhs rhs) i =
      if i < rhs.size_ then vGet rhs i else none := by
  have hlen : lhs.slots.length = lhs.Capacity := hl.1
  refine ⟨rfl, rfl, ?_⟩
  intro i
  unfold AllocateOnCapacity
  by_cases hss : rhs.size_ < lhs.size_
  · have hmin : min lhs.size_ rhs.size_ = rhs.size_ := by omega
    show sget (if rhs.size_ < lhs.size_ then _ else _) i = _
    rw [if_pos hss, hmin]
    rw [sget_clrN]
    by_cases h1 : rhs.size_ ≤ i ∧ i < rhs.size_ + (lhs.size_ - rhs.size_)
    · rw [if_pos h1, if_neg (by omega)]
    · rw [if_neg h1]
      rw [sget_copyN _ _ _ _ _ _ (by rw [hlen]; omega)]
      by_cases h2 : i < rhs.size_
      · rw [if_pos ⟨Nat.zero_le i, by omega⟩, if_pos h2]
        show sget rhs.slots (0 + (i - 0)) = sget rhs.slots i
        congr 1
        omega
      · rw [if_neg (by omega), if_neg h2]
        have hge : lhs.size_ ≤ i := by omega
        have := hl.live_iff i
        rcases hv : vGet lhs i with _ | a
        · exact hv
        · rw [hv] at this
          simp at this
          omega
  · have hmin : min lhs.size_ rhs.size_ = lhs.size_ := by omega
    show sget (if rhs.size_ < lhs.size_ then _ else _) i = _
    rw [if_neg hss, hmin]
    rw [sget_copyN _ _ _ _ _ _ (by rw [length_copyN, hlen]; omega)]
    by_cases h1 : lhs.size_ ≤ i ∧ i < lhs.size_ + (rhs.size_ - lhs.size_)
    · rw [if_pos h1, if_pos (by omega)]
      show sget rhs.slots (lhs.size_ + (i - lhs.size_)) = sget rhs.slots i
      congr 1
      omega
    · rw [if_neg h1]
      rw [sget_copyN _ _ _ _ _ _ (by rw [hlen]; omega)]
      by_cases h2 : i < lhs.size_
      · rw [if_pos ⟨Nat.zero_le i, by omega⟩, if_pos (by omega)]
        show sget rhs.slots (0 + (i - 0)) = sget rhs.slots i
        congr 1
        omega
      · rw [if_neg (by omega), if_neg (by omega)]
        have := hl.live_iff i
        rcases hv : vGet lhs i with _ | a
        · exact hv
        · rw [hv] at this
          simp at this
          omega

theorem length_AllocateOnCapacity {α : Type} (lhs rhs : Vector α) :
    (AllocateOnCapacity lhs rhs).slots.length = lhs.slots.length := by
  unfold AllocateOnCapacity
  show (if rhs.size_ < lhs.size_ then _ else _ : List (Option α)).length = _
  split
  · rw [length_clrN, length_copyN]
  · rw [length_copyN, length_copyN]

theorem WF_AllocateOnCapacity {α : Type} (lhs rhs : Vector α)
    (hl : WF lhs) (hr : WF rhs) (hc : rhs.size_ ≤ lhs.Capacity) :
    WF (AllocateOnCapacity lhs rhs) := by
  obtain ⟨hsz, hcap, hget⟩ := AllocateOnCapacity_spec lhs rhs hl hr hc
  refine ⟨?_, ?_, ?_⟩
  · rw [length_AllocateOnCapacity, hl.1, hcap]
  · show rhs.size_ ≤ (AllocateOnCapacity lhs rhs).Capacity
    rw [hcap]
    exact hc
  · intro i hi
    show (vGet (AllocateOnCapacity lhs rhs) i).isSome ↔ i < rhs.size_
    rw [hget i]
    by_cases h : i < rhs.size_
    · rw [if_pos h, hr.live_iff]
    · rw [if_neg h]
      simpa using h

theorem copyAssign_spec {α : Type} (lhs rhs : Vector α) (hl : WF lhs) (hr : WF rhs) :
    (copyAssign false lhs rhs).Size = rhs.Size ∧
    ∀ i, vGet (copyAssign false lhs rhs) i =
      if i < rhs.size_ then vGet rhs i else none := by
  unfold copyAssign
  rw [if_neg (by simp)]
  by_cases hgt : rhs.size_ > lhs.data_.capacity_
  · rw [if_pos hgt]
    exact ⟨rfl, fun i => vGet_copyCtor rhs i⟩
  · rw [if_neg hgt]
    obtain ⟨h1, _, h3⟩ := AllocateOnCapacity_spec lhs rhs hl hr (Nat.le_of_not_lt hgt)
    exact ⟨h1, h3⟩

theorem WF_copyAssign {α : Type} (lhs rhs : Vector α) (hl : WF lhs) (hr : WF rhs) :
    WF (copyAssign false lhs rhs) := by
  unfold copyAssign
  rw [if_neg (by simp)]
  by_cases hgt : rhs.size_ > lhs.data_.capacity_
  · rw [if_pos hgt]
    exact WF_copyCtor rhs hr
  · rw [if_neg hgt]
    exact WF_AllocateOnCapacity lhs rhs hl hr (Nat.le_of_not_lt hgt)

theorem WF.vGet_none {α : Type} {v : Vector α} (h : WF v) {i : Nat} (hi : v.size_ ≤ i) :
    vGet v i = none := by
  have hlive := h.live_iff i
  rcases hv : vGet v i with _ | a
  · rfl
  · rw [hv] at hlive
    simp at hlive
    omega

theorem size_Realocate {α : Type} (v : Vector α) (pos : Nat) (a : α) :
    (Realocate v pos a).size_ = v.size_ + 1 := rfl

theorem cap_Realocate {α : Type} (v : Vector α) (pos : Nat) (a : α) :
    (Realocate v pos a).Capacity = if v.size_ = 0 then 1 else v.size_ * 2 := rfl

theorem length_Realocate {α : Type} (v : Vector α) (pos : Nat) (a : α) :
    (Realocate v pos a).slots.length = (Realocate v pos a).Capacity := by
  show (copyN v.slots pos
    (copyN v.slots 0 ((List.replicate (if v.size_ = 0 then 1 else v.size_ * 2)
      (none : Option α)).set pos (some a)) 0 pos) (pos + 1) (v.size_ - pos)).length = _
  rw [length_copyN, length_copyN, List.length_set, List.length_replicate]
  rfl

theorem vGet_Realocate {α : Type} (v : Vector α) (pos : Nat) (a : α) (_hwf : WF v)
    (hp : pos ≤ v.size_) (i : Nat) :
    vGet (Realocate v pos a) i =
      if i < pos then vGet v i else if i = pos then some a
      else if i ≤ v.size_ then vGet v (i - 1) else none := by
  have hnc : v.size_ + 1 ≤ (if v.size_ = 0 then 1 else v.size_ * 2) := by split <;> omega
  show sget (copyN v.slots pos
      (copyN v.slots 0 ((List.replicate (if v.size_ = 0 then 1 else v.size_ * 2)
        (none : Option α)).set pos (some a)) 0 pos) (pos + 1) (v.size_ - pos)) i = _
  rw [sget_copyN _ _ _ _ _ _
    (by rw [length_copyN, List.length_set, List.length_replicate]; omega)]
  by_cases h1 : pos + 1 ≤ i ∧ i < pos + 1 + (v.size_ - pos)
  · rw [if_pos h1, if_neg (by omega), if_neg (by omega), if_pos (by omega)]
    show sget v.slots (pos + (i - (pos + 1))) = sget v.slots (i - 1)
    congr 1
    omega
  · rw [if_neg h1]
    rw [sget_copyN _ _ _ _ _ _ (by rw [List.length_set, List.length_replicate]; omega)]
    by_cases h2 : i < pos
    · rw [if_pos ⟨Nat.zero_le i, by omega⟩, if_pos h2]
      show sget v.slots (0 + (i - 0)) = sget v.slots i
      congr 1
      omega
    · rw [if_neg (by omega)]
      rw [sget_set]
      by_cases h3 : i = pos
      · rw [if_pos ⟨h3.symm, by rw [List.length_replicate]; omega⟩, if_neg (by omega),
          if_pos h3]
      · rw [if_neg (fun hc => h3 hc.1.symm), sget_replicate, if_neg h2, if_neg h3,
          if_neg (by omega)]

theorem WF_Realocate {α : Type} (v : Vector α) (pos : Nat) (a : α) (hwf : WF v)
    (hp : pos ≤ v.size_) : WF (Realocate v pos a) := by
  have hnc : v.size_ + 1 ≤ (if v.size_ = 0 then 1 else v.size_ * 2) := by split <;> omega
  refine ⟨length_Realocate v pos a, ?_, ?_⟩
  · show v.size_ + 1 ≤ (Realocate v pos a).Capacity
    rw [cap_Realocate]
    exact hnc
  · intro i hi
    show (vGet (Realocate v pos a) i).isSome ↔ i < v.size_ + 1
    rw [vGet_Realocate v pos a hwf hp]
    by_cases h2 : i < pos
    · rw [if_pos h2, hwf.live_iff]
      omega
    · rw [if_neg h2]
      by_cases h3 : i = pos
      · rw [if_pos h3]
        simp
        omega
      · rw [if_neg h3]
        by_cases h4 : i ≤ v.size_
        · rw [if_pos h4, hwf.live_iff]
          omega
        · rw [if_neg h4]
          simp
          omega

theorem size_Emplace {α : Type} (v : Vector α) (pos : Nat) (a : α) :
    (Emplace v pos a).size_ = v.size_ + 1 := by
  unfold Emplace
  split
  · rfl
  · split <;> rfl

theorem vGet_Emplace {α : Type} (v : Vector α) (pos : Nat) (a : α) (hwf : WF v)
    (hp : pos ≤ v.size_) (i : Nat) :
    vGet (Emplace v pos a) i =
      if i < pos then vGet v i else if i = pos then some a
      else if i ≤ v.size_ then vGet v (i - 1) else none := by
  unfold Emplace
  split
  · exact vGet_Realocate v pos a hwf hp i
  · rename_i hne
    have hlt : v.size_ < v.Capacity := Nat.lt_of_le_of_ne hwf.2.1 hne
    have hlen : v.slots.length = v.Capacity := hwf.1
    split
    · rename_i hpe
      show sget (v.slots.set pos (some a)) i = _
      rw [sget_set]
      by_cases h : pos = i
      · subst h
        rw [if_pos ⟨rfl, by omega⟩, if_neg (by omega), if_pos rfl]
      · rw [if_neg (fun hc => h hc.1)]
        by_cases h2 : i < pos
        · rw [if_pos h2]
          rfl
        · rw [if_neg h2, if_neg (fun hc => h hc.symm), if_neg (by omega)]
          exact hwf.vGet_none (by omega)
    · rename_i hpne
      have hps : pos < v.size_ := Nat.lt_of_le_of_ne hp hpne
      show sget ((moveBackwardN (v.slots.set v.size_ (sget v.slots (v.size_ - 1))) pos
        (v.size_ - 1 - pos)).set pos (some a)) i = _
      rw [sget_set]
      by_cases h : pos = i
      · subst h
        rw [if_pos ⟨rfl, by rw [length_moveBackwardN, List.length_set]; omega⟩,
          if_neg (by omega), if_pos rfl]
      · rw [if_neg (fun hc => h hc.1)]
        rw [sget_moveBackwardN _ _ _ _ (by rw [List.length_set]; omega)]
        by_cases h1 : pos + 1 ≤ i ∧ i ≤ pos + (v.size_ - 1 - pos)
        · rw [if_pos h1, sget_set, if_neg (by omega)]
          rw [if_neg (by omega), if_neg (fun hc => h hc.symm), if_pos (by omega)]
          rfl
        · by_cases h2 : i < pos
          · rw [if_neg (by omega), sget_set, if_neg (by omega), if_pos h2]
            rfl
          · rw [if_neg h1, sget_set]
            by_cases h3 : i = v.size_
            · rw [if_pos ⟨h3.symm, by omega⟩, if_neg (by omega),
                if_neg (fun hc => h hc.symm), if_pos (by omega), h3]
              rfl
            · rw [if_neg (fun hc => h3 hc.1.symm), if_neg (by omega),
                if_neg (fun hc => h hc.symm), if_neg (by omega)]
              exact hwf.vGet_none (by omega)

theorem cap_Emplace_not_full {α : Type} (v : Vector α) (pos : Nat) (a : α)
    (hlt : v.size_ < v.Capacity) : (Emplace v pos a).Capacity = v.Capacity := by
  have hlt2 : v.size_ < v.data_.capacity_ := hlt
  unfold Emplace
  rw [if_neg (by omega)]
  split <;> rfl

theorem length_slots_Emplace {α : Type} (v : Vector α) (pos : Nat) (a : α) (hwf : WF v) :
    (Emplace v pos a).slots.length = (Emplace v pos a).Capacity := by
  unfold Emplace
  split
  · exact length_Realocate v pos a
  · split
    · show (v.slots.set pos (some a)).length = v.Capacity
      rw [List.length_set]
      exact hwf.1
    · show ((moveBackwardN (v.slots.set v.size_ (sget v.slots (v.size_ - 1))) pos
        (v.size_ - 1 - pos)).set pos (some a)).length = v.Capacity
      rw [List.length_set, length_moveBackwardN, List.length_set]
      exact hwf.1

theorem WF_Emplace {α : Type} (v : Vector α) (pos : Nat) (a : α) (hwf : WF v)
    (hp : pos ≤ v.size_) : WF (Emplace v pos a) := by
  refine ⟨length_slots_Emplace v pos a hwf, ?_, ?_⟩
  · show (Emplace v pos a).size_ ≤ (Emplace v pos a).Capacity
    rw [size_Emplace]
    by_cases hfull : v.size_ = v.data_.capacity_
    · unfold Emplace
      rw [if_pos hfull]
      show v.size_ + 1 ≤ (Realocate v pos a).Capacity
      rw [cap_Realocate]
      split <;> omega
    · rw [cap_Emplace_not_full v pos a (Nat.lt_of_le_of_ne hwf.2.1 hfull)]
      have h1 := hwf.2.1
      have hfull2 : v.size_ ≠ v.Capacity := hfull
      show v.size_ + 1 ≤ v.Capacity
      omega
  · intro i hi
    show (vGet (Emplace v pos a) i).isSome ↔ i < (Emplace v pos a).size_
    rw [vGet_Emplace v pos a hwf hp, size_Emplace]
    by_cases h2 : i < pos
    · rw [if_pos h2, hwf.live_iff]
      omega
    · rw [if_neg h2]
      by_cases h3 : i = pos
      · rw [if_pos h3]
        simp
        omega
      · rw [if_neg h3]
        by_cases h4 : i ≤ v.size_
        · rw [if_pos h4, hwf.live_iff]
          omega
        · rw [if_neg h4]
          simp
          omega

theorem size_Erase {α : Type} (v : Vector α) (pos : Nat) (hs : v.size_ ≠ 0) :
    (Erase v pos).size_ = v.size_ - 1 := by
  unfold Erase
  rw [if_pos hs]
  rfl

theorem cap_Erase {α : Type} (v : Vector α) (pos : Nat) (hs : v.size_ ≠ 0) :
    (Erase v pos).Capacity = v.Capacity := by
  unfold Erase
  rw [if_pos hs]
  rfl

theorem vGet_Erase {α : Type} (v : Vector α) (pos : Nat) (hwf : WF v)
    (hp : pos < v.size_) (i : Nat) :
    vGet (Erase v pos) i =
      if i < pos then vGet v i
      else if i < v.size_ - 1 then vGet v (i + 1) else none := by
  have hs : v.size_ ≠ 0 := by omega
  have hlen : v.slots.length = v.Capacity := hwf.1
  have hsc : v.size_ ≤ v.Capacity := hwf.2.1
  unfold Erase
  rw [if_pos hs]
  show sget ((moveForwardN v.slots pos (v.size_ - 1 - pos)).set (v.size_ - 1) none) i = _
  rw [sget_set]
  by_cases h : v.size_ - 1 = i
  · rw [if_pos ⟨h, by rw [length_moveForwardN]; omega⟩, if_neg (by omega),
      if_neg (by omega)]
  · rw [if_neg (fun hc => h hc.1)]
    rw [sget_moveForwardN _ _ _ _ (by omega)]
    by_cases h1 : pos ≤ i ∧ i < pos + (v.size_ - 1 - pos)
    · rw [if_pos h1, if_neg (by omega), if_pos (by omega)]
      rfl
    · rw [if_neg h1]
      by_cases h2 : i < pos
      · rw [if_pos h2]
        rfl
      · rw [if_neg h2, if_neg (by omega)]
        exact hwf.vGet_none (by omega)

theorem WF_Erase {α : Type} (v : Vector α) (pos : Nat) (hwf : WF v)
    (hp : pos < v.size_) : WF (Erase v pos) := by
  have hs : v.size_ ≠ 0 := by omega
  refine ⟨?_, ?_, ?_⟩
  · rw [cap_Erase v pos hs]
    unfold Erase
    rw [if_pos hs]
    show ((moveForwardN v.slots pos (v.size_ - 1 - pos)).set (v.size_ - 1) none).length
      = v.Capacity
    rw [List.length_set, length_moveForwardN]
    exact hwf.1
  · rw [size_Erase v pos hs, cap_Erase v pos hs]
    have := hwf.2.1
    omega
  · intro i hi
    rw [size_Erase v pos hs, vGet_Erase v pos hwf hp]
    by_cases h2 : i < pos
    · rw [if_pos h2, hwf.live_iff]
      omega
    · rw [if_neg h2]
      by_cases h3 : i < v.size_ - 1
      · rw [if_pos h3, hwf.live_iff]
        omega
      · rw [if_neg h3]
        simp
        omega

end Vector

/-! ## Fallible element operations

For the exception-safety claims the element type's copy constructor is
modelled by a function `cp : α → Option α` (`none` = the copy throws),
and the construction of the new element from `args...` by an
`Option α` outcome.  `Except.error s` means the exception escaped the
member function with the container in state `s`. -/

/-- `std::uninitialized_copy(src + srcLo, src + srcLo + n, dst + dstLo)`
with fallible element copies, constructing left to right.  A throw makes
it destroy the elements it already constructed — the affected slots of
`dst` were uninitialized before the call, so the buffer is back to `dst`
— and propagate (`Except.error ()`). -/
def uninitCopyF {α : Type} (cp : α → Option α) (src : List (Option α)) (srcLo : Nat)
    (dst : List (Option α)) (dstLo n : Nat) : Except Unit (List (Option α)) :=
  match n with
  | 0 => .ok dst
  | m + 1 =>
    match (sget src srcLo).bind cp with
    | none => .error ()
    | some b => uninitCopyF cp src (srcLo + 1) (dst.set dstLo (some b)) (dstLo + 1) m

/-- `std::copy(src + srcLo, src + srcLo + n, dst + dstLo)` with fallible
copy-assignments, left to right.  A throw leaves the already-assigned
prefix in place: `Except.error` carries the partially updated buffer. -/
def copyRangeF {α : Type} (cp : α → Option α) (src : List (Option α)) (srcLo : Nat)
    (dst : List (Option α)) (dstLo n : Nat) : Except (List (Option α)) (List (Option α)) :=
  match n with
  | 0 => .ok dst
  | m + 1 =>
    match (sget src srcLo).bind cp with
    | none => .error dst
    | some b => copyRangeF cp src (srcLo + 1) (dst.set dstLo (some b)) (dstLo + 1) m

theorem uninitCopyF_pure {α : Type} (src : List (Option α)) (srcLo : Nat)
    (dst : List (Option α)) (dstLo n : Nat)
    (h : ∀ k, k < n → (sget src (srcLo + k)).isSome) :
    uninitCopyF (fun a => some a) src srcLo dst dstLo n =
      .ok (copyN src srcLo dst dstLo n) := by
  induction n generalizing srcLo dst dstLo with
  | zero => rfl
  | succ m ih =>
    have h0 : (sget src (srcLo + 0)).isSome := h 0 (Nat.succ_pos m)
    rcases hsrc : sget src srcLo with _ | b
    · rw [show srcLo + 0 = srcLo from rfl, hsrc] at h0
      simp at h0
    · show (match (sget src srcLo).bind (fun a => some a) with
        | none => (Except.error () : Except Unit (List (Option α)))
        | some b => uninitCopyF (fun a => some a) src (srcLo + 1) (dst.set dstLo (some b))
            (dstLo + 1) m) = _
      rw [hsrc]
      show uninitCopyF (fun a => some a) src (srcLo + 1) (dst.set dstLo (some b))
          (dstLo + 1) m = _
      rw [ih (srcLo + 1) (dst.set dstLo (some b)) (dstLo + 1) (fun k hk => by
        have := h (k + 1) (by omega)
        rw [show srcLo + (k + 1) = srcLo + 1 + k by omega] at this
        exact this)]
      show _ = Except.ok (copyN src (srcLo + 1) (dst.set dstLo (sget src srcLo)) (dstLo + 1) m)
      rw [hsrc]

theorem copyRangeF_pure {α : Type} (src : List (Option α)) (srcLo : Nat)
    (dst : List (Option α)) (dstLo n : Nat)
    (h : ∀ k, k < n → (sget src (srcLo + k)).isSome) :
    copyRangeF (fun a => some a) src srcLo dst dstLo n =
      .ok (copyN src srcLo dst dstLo n) := by
  induction n generalizing srcLo dst dstLo with
  | zero => rfl
  | succ m ih =>
    have h0 : (sget src (srcLo + 0)).isSome := h 0 (Nat.succ_pos m)
    rcases hsrc : sget src srcLo with _ | b
    · rw [show srcLo + 0 = srcLo from rfl, hsrc] at h0
      simp at h0
    · show (match (sget src srcLo).bind (fun a => some a) with
        | none => (Except.error dst : Except (List (Option α)) (List (Option α)))
        | some b => copyRangeF (fun a => some a) src (srcLo + 1) (dst.set dstLo (some b))
            (dstLo + 1) m) = _
      rw [hsrc]
      show copyRangeF (fun a => some a) src (srcLo + 1) (dst.set dstLo (some b))
          (dstLo + 1) m = _
      rw [ih (srcLo + 1) (dst.set dstLo (some b)) (dstLo + 1) (fun k hk => by
        have := h (k + 1) (by omega)
        rw [show srcLo + (k + 1) = srcLo + 1 + k by omega] at this
        exact this)]
      show _ = Except.ok (copyN src (srcLo + 1) (dst.set dstLo (sget src srcLo)) (dstLo + 1) m)
      rw [hsrc]

theorem uninitCopyF_ok_outside {α : Type} (cp : α → Option α) (src : List (Option α))
    (srcLo : Nat) (dst : List (Option α)) (dstLo n : Nat) (out : List (Option α))
    (hok : uninitCopyF cp src srcLo dst dstLo n = .ok out) (j : Nat)
    (hj : j < dstLo ∨ dstLo + n ≤ j) : sget out j = sget dst j := by
  induction n generalizing srcLo dst dstLo with
  | zero =>
    cases hok
    rfl
  | succ m ih =>
    revert hok
    show (match (sget src srcLo).bind cp with
      | none => (Except.error () : Except Unit (List (Option α)))
      | some b => uninitCopyF cp src (srcLo + 1) (dst.set dstLo (some b)) (dstLo + 1) m)
        = .ok out → _
    rcases hb : (sget src srcLo).bind cp with _ | b
    · intro hok
      cases hok
    · intro hok
      have := ih (srcLo + 1) (dst.set dstLo (some b)) (dstLo + 1) hok (by omega)
      rw [this, sget_set, if_neg (by omega)]

namespace Vector

/-- Fallible `Vector(const Vector&)`: raw block of `other.size_` slots,
then `uninitialized_copy_n`.  On a copy failure the constructed prefix
is destroyed, the fresh block deallocated, and the exception propagates
(`none`). -/
def copyCtorF {α : Type} (cp : α → Option α) (other : Vector α) : Option (Vector α) :=
  match uninitCopyF cp other.slots 0 (RawMemory.alloc α other.size_).buffer_ 0 other.size_ with
  | .error _ => none
  | .ok s => some ⟨⟨s, other.size_⟩, other.size_⟩

/-- Fallible `AllocateOnCapacity`: an `Except.error` carries the
left-hand container's state at the point the exception escapes (the
prefix `std::copy` leaves partial assignments behind; the tail
`uninitialized_copy` rolls its own constructions back; `size_` is only
written after both). -/
def AllocateOnCapacityF {α : Type} (cp : α → Option α) (lhs rhs : Vector α) :
    Except (Vector α) (Vector α) :=
  match copyRangeF cp rhs.slots 0 lhs.slots 0 (min lhs.size_ rhs.size_) with
  | .error s1 => .error ⟨⟨s1, lhs.data_.capacity_⟩, lhs.size_⟩
  | .ok s1 =>
    if rhs.size_ < lhs.size_ then
      .ok ⟨⟨clrN s1 rhs.size_ (lhs.size_ - rhs.size_), lhs.data_.capacity_⟩, rhs.size_⟩
    else
      match uninitCopyF cp rhs.slots lhs.size_ s1 lhs.size_ (rhs.size_ - lhs.size_) with
      | .error _ => .error ⟨⟨s1, lhs.data_.capacity_⟩, lhs.size_⟩
      | .ok s2 => .ok ⟨⟨s2, lhs.data_.capacity_⟩, rhs.size_⟩

/-- Fallible `operator=(const Vector& rhs)` for distinct objects: when
`rhs.size_` exceeds the capacity, `Vector rhs_copy(rhs); Swap(rhs_copy)` —
if the copy construction throws, `*this` was never touched
(`Except.error lhs`); otherwise the storage is reused via
`AllocateOnCapacity`. -/
def copyAssignF {α : Type} (cp : α → Option α) (lhs rhs : Vector α) :
    Except (Vector α) (Vector α) :=
  if rhs.size_ > lhs.data_.capacity_ then
    match copyCtorF cp rhs with
    | none => .error lhs
    | some c => .ok c
  else AllocateOnCapacityF cp lhs rhs

/-- Fallible `Realocate(pos, args...)`: `c` is the outcome of
constructing the new element from `args...` in its slot of the fresh
block (`none` = that construction throws — nothing else has happened,
the fresh block is simply deallocated).  If a relocation copy throws,
the `catch` destroys the new element and rethrows; `*this` is only
written (`data_.Swap`, `++size_`) after every fallible step, so any
escape leaves `v` unchanged at the value level. -/
def RealocateF {α : Type} (cp : α → Option α) (v : Vector α) (pos : Nat) (c : Option α) :
    Except (Vector α) (Vector α) :=
  match c with
  | none => .error v
  | some a =>
    match uninitCopyF cp v.slots 0
        ((RawMemory.alloc α (if v.size_ = 0 then 1 else v.size_ * 2)).buffer_.set pos (some a))
        0 pos with
    | .error _ => .error v
    | .ok nd2 =>
      match uninitCopyF cp v.slots pos nd2 (pos + 1) (v.size_ - pos) with
      | .error _ => .error v
      | .ok nd3 => .ok ⟨⟨nd3, if v.size_ = 0 then 1 else v.size_ * 2⟩, v.size_ + 1⟩

/-- Fallible `Emplace(pos, args...)`: at capacity it is `Realocate`;
otherwise the only fallible step is constructing the element (directly
in the end slot, or as the temporary `tmp`) — it happens before any
write to the container, and the subsequent moves are the infallible
in-place shift of `Emplace`. -/
def EmplaceF {α : Type} (cp : α → Option α) (v : Vector α) (pos : Nat) (c : Option α) :
    Except (Vector α) (Vector α) :=
  if v.size_ = v.data_.capacity_ then RealocateF cp v pos c
  else
    match c with
    | none => .error v
    | some a => .ok (Emplace v pos a)

end Vector

/-! ## The public operation surface, as a step system (for the
reachable-state invariant) -/

/-- One public operation of `Vector<T>` applied to a container `v`.
Operations that involve a second container carry it as data; operations
that construct a fresh container ignore `v`.  For the two-container
operations (`Swap`, move construction, move assignment) each of the two
resulting containers is one of the two inputs, so one label per
resulting side suffices. -/
inductive Op (α : Type) where
  | defaultCtorOp : Op α
  | sizedCtorOp (n : Nat) (d : α) : Op α
  | copyCtorOp (rhs : Vector α) : Op α
  | copyAssignOp (same : Bool) (rhs : Vector α) : Op α
  | moveCtorRecvOp (rhs : Vector α) : Op α
  | moveCtorSourceOp : Op α
  | moveAssignOp (same : Bool) (rhs : Vector α) : Op α
  | swapOp (other : Vector α) : Op α
  | reserveOp (n : Nat) : Op α
  | resizeOp (n : Nat) (d : α) : Op α
  | pushBackOp (a : α) : Op α
  | emplaceBackOp (a : α) : Op α
  | popBackOp : Op α
  | emplaceOp (pos : Nat) (a : α) : Op α
  | insertOp (pos : Nat) (a : α) : Op α
  | eraseOp (pos : Nat) : Op α

/-- The state transformer of each operation (the container under
observation before → after; for `moveCtorRecvOp`/`moveCtorSourceOp` the
observed container is the constructed target resp. the donor). -/
def Op.apply {α : Type} : Op α → Vector α → Vector α
  | .defaultCtorOp, _ => Vector.mkDefault α
  | .sizedCtorOp n d, _ => Vector.mkSized n d
  | .copyCtorOp rhs, _ => Vector.copyCtor rhs
  | .copyAssignOp same rhs, v => Vector.copyAssign same v rhs
  | .moveCtorRecvOp rhs, _ => (Vector.moveCtor rhs).1
  | .moveCtorSourceOp, v => (Vector.moveCtor v).2
  | .moveAssignOp same rhs, v => (Vector.moveAssign same v rhs).1
  | .swapOp other, v => (v.Swap other).1
  | .reserveOp n, v => v.Reserve n
  | .resizeOp n d, v => v.Resize n d
  | .pushBackOp a, v => v.PushBack a
  | .emplaceBackOp a, v => v.EmplaceBack a
  | .popBackOp, v => v.PopBack
  | .emplaceOp pos a, v => v.Emplace pos a
  | .insertOp pos a, v => v.Insert pos a
  | .eraseOp pos, v => v.Erase pos

/-- Preconditions of the operations: the documented contracts (asserted
in debug builds in the source), plus well-formedness of any second
container involved. -/
def Op.pre {α : Type} : Op α → Vector α → Prop
  | .copyCtorOp rhs, _ => Vector.WF rhs
  | .copyAssignOp _ rhs, _ => Vector.WF rhs
  | .moveCtorRecvOp rhs, _ => Vector.WF rhs
  | .moveAssignOp _ rhs, _ => Vector.WF rhs
  | .swapOp other, _ => Vector.WF other
  | .popBackOp, v => v.size_ ≠ 0
  | .emplaceOp pos _, v => pos ≤ v.size_
  | .insertOp pos _, v => pos ≤ v.size_
  | .eraseOp pos, v => pos < v.size_
  | _, _ => True

instance {α : Type} [DecidableEq α] (op : Op α) (v : Vector α) : Decidable (op.pre v) := by
  cases op <;> (unfold Op.pre; infer_instance)

theorem WF_apply {α : Type} (op : Op α) (v : Vector α)
    (hwf : Vector.WF v) (hpre : op.pre v) : Vector.WF (op.apply v) := by
  cases op with
  | defaultCtorOp => exact Vector.WF_mkDefault α
  | sizedCtorOp n d => exact Vector.WF_mkSized n d
  | copyCtorOp rhs => exact Vector.WF_copyCtor rhs hpre
  | copyAssignOp same rhs =>
    cases same
    · exact Vector.WF_copyAssign v rhs hwf hpre
    · exact hwf
  | moveCtorRecvOp rhs => exact hpre
  | moveCtorSourceOp => exact Vector.WF_mkDefault α
  | moveAssignOp same rhs =>
    cases same
    · exact hpre
    · exact hwf
  | swapOp other => exact hpre
  | reserveOp n => exact Vector.WF_Reserve v n hwf
  | resizeOp n d => exact Vector.WF_Resize v n d hwf
  | pushBackOp a => exact Vector.WF_Emplace v v.size_ a hwf (Nat.le_refl _)
  | emplaceBackOp a => exact Vector.WF_Emplace v v.size_ a hwf (Nat.le_refl _)
  | popBackOp => exact Vector.WF_PopBack v hwf hpre
  | emplaceOp pos a => exact Vector.WF_Emplace v pos a hwf hpre
  | insertOp pos a => exact Vector.WF_Emplace v pos a hwf hpre
  | eraseOp pos => exact Vector.WF_Erase v pos hwf hpre

/-! ## The claims -/

/-- C1 (counterexample to the claim as stated): move assignment is
implemented as `Swap`, so when the destination is non-empty the source
does not end up empty.  Moving `A = [7]` into `B = [9]` leaves the
source `A` with size 1 and capacity 1, not 0. -/
theorem c1_counterexample :
    ¬ ((Vector.moveAssign false (⟨⟨[some 9], 1⟩, 1⟩ : Vector Nat)
          ⟨⟨[some 7], 1⟩, 1⟩).2.Size = 0 ∧
       (Vector.moveAssign false (⟨⟨[some 9], 1⟩, 1⟩ : Vector Nat)
          ⟨⟨[some 7], 1⟩, 1⟩).2.Capacity = 0) := by
  decide

/-- C1 (amended): after move construction the source is an empty
container (size 0, capacity 0) and the destination holds exactly the
source's original elements in order; after move assignment (a swap) the
destination holds exactly the source's original elements in order, while
the source receives the destination's previous state — it is empty only
if the destination was empty. -/
theorem c1_move_semantics {α : Type} (v lhs rhs : Vector α) :
    ((Vector.moveCtor v).2.Size = 0 ∧ (Vector.moveCtor v).2.Capacity = 0 ∧
      (Vector.moveCtor v).1.Size = v.Size ∧ (Vector.moveCtor v).1.Capacity = v.Capacity ∧
      ∀ i, (Vector.moveCtor v).1.vGet i = v.vGet i) ∧
    ((Vector.moveAssign false lhs rhs).1 = rhs ∧
      (Vector.moveAssign false lhs rhs).2 = lhs) :=
  ⟨⟨rfl, rfl, rfl, rfl, fun _ => rfl⟩, rfl, rfl⟩

/-- C2: when size equals capacity, `Emplace` (hence
`EmplaceBack`/`PushBack`/`Insert`) at any position constructs the new
element first, directly in its final slot `pos` of the fresh block; if
that construction throws (`c = none`) the exception escapes with the
container exactly as it was — same size, same capacity, same elements. -/
theorem c2_emplace_at_capacity_strong {α : Type} (cp : α → Option α) (v : Vector α)
    (pos : Nat) (hfull : v.Size = v.Capacity) (hp : pos ≤ v.Size) :
    Vector.EmplaceF cp v pos none = .error v ∧
    ∀ a w, Vector.EmplaceF cp v pos (some a) = .ok w →
      w.vGet pos = some a ∧ w.Size = v.Size + 1 ∧
      w.Capacity = max 1 (v.Capacity * 2) := by
  have hfull' : v.size_ = v.data_.capacity_ := hfull
  have hp' : pos ≤ v.size_ := hp
  have hnc : v.size_ + 1 ≤ (if v.size_ = 0 then 1 else v.size_ * 2) := by split <;> omega
  constructor
  · unfold Vector.EmplaceF
    rw [if_pos hfull']
    rfl
  · intro a w
    unfold Vector.EmplaceF
    rw [if_pos hfull']
    unfold Vector.RealocateF
    rcases h2 : uninitCopyF cp v.slots 0
        ((RawMemory.alloc α (if v.size_ = 0 then 1 else v.size_ * 2)).buffer_.set pos
          (some a)) 0 pos with _ | nd2
    · simp only [h2]
      intro hok
      exact Except.noConfusion hok
    · simp only [h2]
      rcases h3 : uninitCopyF cp v.slots pos nd2 (pos + 1) (v.size_ - pos) with _ | nd3
      · simp only [h3]
        intro hok
        exact Except.noConfusion hok
      · simp only [h3]
        intro hok
        injection hok with hw
        subst hw
        refine ⟨?_, rfl, ?_⟩
        · have o3 := uninitCopyF_ok_outside cp v.slots pos nd2 (pos + 1)
            (v.size_ - pos) nd3 h3 pos (Or.inl (by omega))
          have o2 := uninitCopyF_ok_outside cp v.slots 0
            ((RawMemory.alloc α (if v.size_ = 0 then 1 else v.size_ * 2)).buffer_.set pos
              (some a)) 0 pos nd2 h2 pos (Or.inr (by omega))
          show sget nd3 pos = some a
          rw [o3, o2, sget_set]
          rw [if_pos ⟨rfl, by
            show pos < (List.replicate (if v.size_ = 0 then 1 else v.size_ * 2)
              (none : Option α)).length
            rw [List.length_replicate]
            omega⟩]
        · show (if v.size_ = 0 then 1 else v.size_ * 2) = max 1 (v.Capacity * 2)
          have hc2 : v.Capacity = v.size_ := hfull.symm
          split <;> omega

theorem c2_witness :
    Vector.EmplaceF (fun a => some a) (⟨⟨[some 1, some 2], 2⟩, 2⟩ : Vector Nat) 1 none
      = .error ⟨⟨[some 1, some 2], 2⟩, 2⟩ ∧
    ∀ a w, Vector.EmplaceF (fun a => some a) (⟨⟨[some 1, some 2], 2⟩, 2⟩ : Vector Nat) 1
        (some a) = .ok w →
      w.vGet 1 = some a ∧ w.Size = 3 ∧ w.Capacity = max 1 (2 * 2) :=
  c2_emplace_at_capacity_strong (fun a => some a) (⟨⟨[some 1, some 2], 2⟩, 2⟩ : Vector Nat)
    1 (by decide) (by decide)

/-- C3: when the right-hand size exceeds the capacity, copy assignment
builds a full temporary copy and swaps — if any element copy throws, the
exception escapes with the left-hand container exactly unchanged (strong
guarantee); when the right-hand size fits within the capacity the
existing storage is reused (`AllocateOnCapacity`: assign over the
overlapping prefix, then destroy the excess tail or copy-construct the
extra source elements), and afterwards the left side's size and contents
equal the right side's, capacity unchanged. -/
theorem c3_copy_assign_guarantee {α : Type} (lhs rhs : Vector α)
    (hl : Vector.WF lhs) (hr : Vector.WF rhs) :
    (lhs.Capacity < rhs.Size →
      ∀ (cp : α → Option α) (e : Vector α),
        Vector.copyAssignF cp lhs rhs = .error e → e = lhs) ∧
    (rhs.Size ≤ lhs.Capacity →
      Vector.copyAssignF (fun a => some a) lhs rhs
        = .ok (Vector.AllocateOnCapacity lhs rhs) ∧
      (Vector.AllocateOnCapacity lhs rhs).Size = rhs.Size ∧
      (Vector.AllocateOnCapacity lhs rhs).Capacity = lhs.Capacity ∧
      ∀ i, i < rhs.Size → (Vector.AllocateOnCapacity lhs rhs).vGet i = rhs.vGet i) := by
  constructor
  · intro hc cp e
    unfold Vector.copyAssignF
    rw [if_pos (show rhs.size_ > lhs.data_.capacity_ from hc)]
    rcases hcc : Vector.copyCtorF cp rhs with _ | c
    · simp only [hcc]
      intro he
      injection he with h
      exact h.symm
    · simp only [hcc]
      intro he
      exact Except.noConfusion he
  · intro hc
    have hc' : rhs.size_ ≤ lhs.data_.capacity_ := hc
    obtain ⟨hsp, hcp, hgp⟩ := Vector.AllocateOnCapacity_spec lhs rhs hl hr hc
    refine ⟨?_, hsp, hcp, ?_⟩
    · have hrg : copyRangeF (fun a => some a) rhs.slots 0 lhs.slots 0
          (min lhs.size_ rhs.size_)
          = .ok (copyN rhs.slots 0 lhs.slots 0 (min lhs.size_ rhs.size_)) :=
        copyRangeF_pure _ _ _ _ _ (fun k hk => by
          rw [Nat.zero_add]
          exact (hr.live_iff k).mpr (by omega))
      have huc : uninitCopyF (fun a => some a) rhs.slots lhs.size_
          (copyN rhs.slots 0 lhs.slots 0 (min lhs.size_ rhs.size_)) lhs.size_
          (rhs.size_ - lhs.size_)
          = .ok (copyN rhs.slots lhs.size_
              (copyN rhs.slots 0 lhs.slots 0 (min lhs.size_ rhs.size_)) lhs.size_
              (rhs.size_ - lhs.size_)) :=
        uninitCopyF_pure _ _ _ _ _
          (fun k hk => (hr.live_iff (lhs.size_ + k)).mpr (by omega))
      unfold Vector.copyAssignF Vector.AllocateOnCapacityF Vector.AllocateOnCapacity
      rw [if_neg (by omega)]
      simp only [hrg, huc]
      split <;> rfl
    · intro i hi
      rw [hgp i, if_pos (show i < rhs.size_ from hi)]

theorem c3_witness :
    ((⟨⟨[some 7], 1⟩, 1⟩ : Vector Nat).Capacity < 2 →
      ∀ (cp : Nat → Option Nat) (e : Vector Nat),
        Vector.copyAssignF cp ⟨⟨[some 7], 1⟩, 1⟩ ⟨⟨[some 1, some 2], 2⟩, 2⟩ = .error e →
          e = ⟨⟨[some 7], 1⟩, 1⟩) ∧
    (2 ≤ (⟨⟨[some 7], 1⟩, 1⟩ : Vector Nat).Capacity →
      Vector.copyAssignF (fun a => some a) ⟨⟨[some 7], 1⟩, 1⟩ ⟨⟨[some 1, some 2], 2⟩, 2⟩
        = .ok (Vector.AllocateOnCapacity ⟨⟨[some 7], 1⟩, 1⟩ ⟨⟨[some 1, some 2], 2⟩, 2⟩) ∧
      (Vector.AllocateOnCapacity (⟨⟨[some 7], 1⟩, 1⟩ : Vector Nat)
        ⟨⟨[some 1, some 2], 2⟩, 2⟩).Size = 2 ∧
      (Vector.AllocateOnCapacity (⟨⟨[some 7], 1⟩, 1⟩ : Vector Nat)
        ⟨⟨[some 1, some 2], 2⟩, 2⟩).Capacity = 1 ∧
      ∀ i, i < 2 →
        (Vector.AllocateOnCapacity (⟨⟨[some 7], 1⟩, 1⟩ : Vector Nat)
          ⟨⟨[some 1, some 2], 2⟩, 2⟩).vGet i
          = (⟨⟨[some 1, some 2], 2⟩, 2⟩ : Vector Nat).vGet i) :=
  c3_copy_assign_guarantee (⟨⟨[some 7], 1⟩, 1⟩ : Vector Nat)
    (⟨⟨[some 1, some 2], 2⟩, 2⟩ : Vector Nat) (by decide) (by decide)

/-- C4: every `Emplace` (hence `Insert`/`EmplaceBack`/`PushBack`)
performed when size equals capacity reallocates to capacity
`max 1 (old_capacity * 2)`. -/
theorem c4_geometric_growth {α : Type} (v : Vector α) (pos : Nat) (a : α)
    (hfull : v.Size = v.Capacity) (_hp : pos ≤ v.Size) :
    (v.Emplace pos a).Capacity = max 1 (v.Capacity * 2) := by
  unfold Vector.Emplace
  rw [if_pos (show v.size_ = v.data_.capacity_ from hfull)]
  rw [Vector.cap_Realocate]
  have hc : v.Capacity = v.size_ := hfull.symm
  split <;> omega

theorem c4_witness :
    ((⟨⟨[some 1, some 2], 2⟩, 2⟩ : Vector Nat).Emplace 1 9).Capacity = max 1 (2 * 2) :=
  c4_geometric_growth (⟨⟨[some 1, some 2], 2⟩, 2⟩ : Vector Nat) 1 9 (by decide) (by decide)

/-- C5: `Reserve n` is a no-op when `n` is at most the current capacity;
otherwise the capacity becomes exactly `n` while the size and every
element value are unchanged. -/
theorem c5_reserve {α : Type} (v : Vector α) (n : Nat) (hwf : Vector.WF v) :
    (n ≤ v.Capacity → v.Reserve n = v) ∧
    (v.Capacity < n →
      (v.Reserve n).Capacity = n ∧ (v.Reserve n).Size = v.Size ∧
      ∀ i, i < v.Size → (v.Reserve n).vGet i = v.vGet i) := by
  constructor
  · exact fun h => Vector.Reserve_noop v n h
  · intro h
    refine ⟨?_, Vector.size_Reserve v n, ?_⟩
    · rw [Vector.cap_Reserve, if_neg (by omega)]
    · intro i hi
      exact Vector.vGet_Reserve v n hwf i hi

theorem c5_witness :
    (5 ≤ (⟨⟨[some 1, some 2, none], 3⟩, 2⟩ : Vector Nat).Capacity →
      (⟨⟨[some 1, some 2, none], 3⟩, 2⟩ : Vector Nat).Reserve 5
        = ⟨⟨[some 1, some 2, none], 3⟩, 2⟩) ∧
    ((⟨⟨[some 1, some 2, none], 3⟩, 2⟩ : Vector Nat).Capacity < 5 →
      ((⟨⟨[some 1, some 2, none], 3⟩, 2⟩ : Vector Nat).Reserve 5).Capacity = 5 ∧
      ((⟨⟨[some 1, some 2, none], 3⟩, 2⟩ : Vector Nat).Reserve 5).Size
        = (⟨⟨[some 1, some 2, none], 3⟩, 2⟩ : Vector Nat).Size ∧
      ∀ i, i < (⟨⟨[some 1, some 2, none], 3⟩, 2⟩ : Vector Nat).Size →
        ((⟨⟨[some 1, some 2, none], 3⟩, 2⟩ : Vector Nat).Reserve 5).vGet i
          = (⟨⟨[some 1, some 2, none], 3⟩, 2⟩ : Vector Nat).vGet i) :=
  c5_reserve (⟨⟨[some 1, some 2, none], 3⟩, 2⟩ : Vector Nat) 5 (by decide)

/-- C6: with spare capacity, `Emplace` (hence `Insert`) at any position
`pos ≤ size` leaves capacity unchanged, increments the size, and the
resulting sequence is the original with the new element at index `pos`. -/
theorem c6_emplace_in_place {α : Type} (v : Vector α) (pos : Nat) (a : α)
    (hwf : Vector.WF v) (hlt : v.Size < v.Capacity) (hp : pos ≤ v.Size) :
    (v.Emplace pos a).Size = v.Size + 1 ∧
    (v.Emplace pos a).Capacity = v.Capacity ∧
    ∀ i, i ≤ v.Size →
      (v.Emplace pos a).vGet i =
        if i < pos then v.vGet i else if i = pos then some a else v.vGet (i - 1) := by
  refine ⟨Vector.size_Emplace v pos a, Vector.cap_Emplace_not_full v pos a hlt, ?_⟩
  intro i hi
  rw [Vector.vGet_Emplace v pos a hwf hp]
  by_cases h2 : i < pos
  · rw [if_pos h2, if_pos h2]
  · rw [if_neg h2, if_neg h2]
    by_cases h3 : i = pos
    · rw [if_pos h3, if_pos h3]
    · rw [if_neg h3, if_neg h3, if_pos (show i ≤ v.size_ from hi)]

theorem c6_witness :
    ((⟨⟨[some 1, some 2, none], 3⟩, 2⟩ : Vector Nat).Emplace 1 9).Size = 3 ∧
    ((⟨⟨[some 1, some 2, none], 3⟩, 2⟩ : Vector Nat).Emplace 1 9).Capacity = 3 ∧
    (∀ i, i ≤ (⟨⟨[some 1, some 2, none], 3⟩, 2⟩ : Vector Nat).Size →
      ((⟨⟨[some 1, some 2, none], 3⟩, 2⟩ : Vector Nat).Emplace 1 9).vGet i =
        if i < 1 then (⟨⟨[some 1, some 2, none], 3⟩, 2⟩ : Vector Nat).vGet i
        else if i = 1 then some 9
        else (⟨⟨[some 1, some 2, none], 3⟩, 2⟩ : Vector Nat).vGet (i - 1)) :=
  c6_emplace_in_place (⟨⟨[some 1, some 2, none], 3⟩, 2⟩ : Vector Nat) 1 9
    (by decide) (by decide) (by decide)

/-- C7: `Erase` at a position `pos < size` of a non-empty container
keeps the capacity, decrements the size, and the resulting sequence is
the original with the element at `pos` removed. -/
theorem c7_erase {α : Type} (v : Vector α) (pos : Nat) (hwf : Vector.WF v)
    (hp : pos < v.Size) :
    (v.Erase pos).Size = v.Size - 1 ∧
    (v.Erase pos).Capacity = v.Capacity ∧
    ∀ i, i < v.Size - 1 →
      (v.Erase pos).vGet i = if i < pos then v.vGet i else v.vGet (i + 1) := by
  have hs : v.size_ ≠ 0 := by
    show v.size_ ≠ 0
    have : pos < v.size_ := hp
    omega
  refine ⟨Vector.size_Erase v pos hs, Vector.cap_Erase v pos hs, ?_⟩
  intro i hi
  rw [Vector.vGet_Erase v pos hwf hp]
  by_cases h2 : i < pos
  · rw [if_pos h2, if_pos h2]
  · rw [if_neg h2, if_neg h2, if_pos (show i < v.size_ - 1 from hi)]

theorem c7_witness :
    ((⟨⟨[some 1, some 2, some 3], 3⟩, 3⟩ : Vector Nat).Erase 1).Size = 2 ∧
    ((⟨⟨[some 1, some 2, some 3], 3⟩, 3⟩ : Vector Nat).Erase 1).Capacity = 3 ∧
    (∀ i, i < 2 →
      ((⟨⟨[some 1, some 2, some 3], 3⟩, 3⟩ : Vector Nat).Erase 1).vGet i =
        if i < 1 then (⟨⟨[some 1, some 2, some 3], 3⟩, 3⟩ : Vector Nat).vGet i
        else (⟨⟨[some 1, some 2, some 3], 3⟩, 3⟩ : Vector Nat).vGet (i + 1)) :=
  c7_erase (⟨⟨[some 1, some 2, some 3], 3⟩, 3⟩ : Vector Nat) 1 (by decide) (by decide)

/-- C8: every public operation (construction, copy, move, `Swap`,
`Reserve`, `Resize`, `PushBack`/`EmplaceBack`, `PopBack`,
`Emplace`/`Insert`, `Erase`), applied under its documented contract to a
well-formed container, yields a container satisfying the invariant:
`0 ≤ size ≤ capacity` and the indices `[0, size)` are exactly the live
elements. -/
theorem c8_invariant {α : Type} (op : Op α) (v : Vector α)
    (hwf : Vector.WF v) (hpre : op.pre v) : Vector.WF (op.apply v) :=
  WF_apply op v hwf hpre

theorem c8_witness :
    Vector.WF (Op.apply (Op.emplaceOp 1 9) (⟨⟨[some 1, some 2, none], 3⟩, 2⟩ : Vector Nat)) :=
  c8_invariant (Op.emplaceOp 1 9) (⟨⟨[some 1, some 2, none], 3⟩, 2⟩ : Vector Nat)
    (by decide) (by decide)

/-- C9: inserting a value at position `pos` and then erasing at `pos`
restores the original sequence of element values (and the original
size). -/
theorem c9_round_trip {α : Type} (v : Vector α) (pos : Nat) (a : α)
    (hwf : Vector.WF v) (hp : pos ≤ v.Size) :
    ((v.Emplace pos a).Erase pos).Size = v.Size ∧
    ∀ i, i < v.Size → ((v.Emplace pos a).Erase pos).vGet i = v.vGet i := by
  have hp' : pos ≤ v.size_ := hp
  have hw := Vector.WF_Emplace v pos a hwf hp
  have hse := Vector.size_Emplace v pos a
  have hp2 : pos < (v.Emplace pos a).size_ := by
    rw [hse]
    omega
  constructor
  · show ((v.Emplace pos a).Erase pos).size_ = v.size_
    rw [Vector.size_Erase _ pos (by omega), hse]
    omega
  · intro i hi
    have hi' : i < v.size_ := hi
    rw [Vector.vGet_Erase _ pos hw hp2, hse]
    by_cases h2 : i < pos
    · rw [if_pos h2, Vector.vGet_Emplace v pos a hwf hp, if_pos h2]
    · rw [if_neg h2, if_pos (by omega), Vector.vGet_Emplace v pos a hwf hp]
      rw [if_neg (by omega), if_neg (by omega), if_pos (by omega), Nat.add_sub_cancel]

theorem c9_witness :
    (((⟨⟨[some 1, some 2, some 3], 3⟩, 3⟩ : Vector Nat).Emplace 1 9).Erase 1).Size = 3 ∧
    ∀ i, i < 3 →
      (((⟨⟨[some 1, some 2, some 3], 3⟩, 3⟩ : Vector Nat).Emplace 1 9).Erase 1).vGet i =
        (⟨⟨[some 1, some 2, some 3], 3⟩, 3⟩ : Vector Nat).vGet i :=
  c9_round_trip (⟨⟨[some 1, some 2, some 3], 3⟩, 3⟩ : Vector Nat) 1 9 (by decide) (by decide)

/-- C10: self-assignment — both assignment operators are guarded by the
identity test `this != &rhs`, so copy- or move-assigning a container to
itself changes nothing; moreover even the value-level path taken for an
equal-valued distinct source (`AllocateOnCapacity` onto itself) leaves
size, capacity and every element unchanged. -/
theorem c10_self_assignment {α : Type} (v : Vector α) (hwf : Vector.WF v) :
    Vector.copyAssign true v v = v ∧
    Vector.moveAssign true v v = (v, v) ∧
    (Vector.copyAssign false v v).Size = v.Size ∧
    (Vector.copyAssign false v v).Capacity = v.Capacity ∧
    ∀ i, (Vector.copyAssign false v v).vGet i = v.vGet i := by
  have hle : v.size_ ≤ v.data_.capacity_ := hwf.2.1
  refine ⟨rfl, rfl, (Vector.copyAssign_spec v v hwf hwf).1, ?_, ?_⟩
  · unfold Vector.copyAssign
    rw [if_neg (by simp), if_neg (by omega)]
    rfl
  · intro i
    rw [(Vector.copyAssign_spec v v hwf hwf).2 i]
    by_cases h : i < v.size_
    · rw [if_pos h]
    · rw [if_neg h]
      exact (hwf.vGet_none (by omega)).symm

theorem c10_witness :
    Vector.copyAssign true (⟨⟨[some 4, some 5, none], 3⟩, 2⟩ : Vector Nat)
        ⟨⟨[some 4, some 5, none], 3⟩, 2⟩ = ⟨⟨[some 4, some 5, none], 3⟩, 2⟩ ∧
    Vector.moveAssign true (⟨⟨[some 4, some 5, none], 3⟩, 2⟩ : Vector Nat)
        ⟨⟨[some 4, some 5, none], 3⟩, 2⟩
      = (⟨⟨[some 4, some 5, none], 3⟩, 2⟩, ⟨⟨[some 4, some 5, none], 3⟩, 2⟩) ∧
    (Vector.copyAssign false (⟨⟨[some 4, some 5, none], 3⟩, 2⟩ : Vector Nat)
        ⟨⟨[some 4, some 5, none], 3⟩, 2⟩).Size = 2 ∧
    (Vector.copyAssign false (⟨⟨[some 4, some 5, none], 3⟩, 2⟩ : Vector Nat)
        ⟨⟨[some 4, some 5, none], 3⟩, 2⟩).Capacity = 3 ∧
    ∀ i, (Vector.copyAssign false (⟨⟨[some 4, some 5, none], 3⟩, 2⟩ : Vector Nat)
        ⟨⟨[some 4, some 5, none], 3⟩, 2⟩).vGet i
      = (⟨⟨[some 4, some 5, none], 3⟩, 2⟩ : Vector Nat).vGet i :=
  c10_self_assignment (⟨⟨[some 4, some 5, none], 3⟩, 2⟩ : Vector Nat) (by decide)

end AdvVec
